import Mathlib

/-!
Verification development for the BayesFlow flow-matching core and the
deep-set equivariant module.

Embedded from the repository sources:
* `bayesflow/networks/flow_matching/flow_matching.py` (`FlowMatching`)
* `bayesflow/experimental/networks/deep_set/equivariant_module.py`
  (`EquivariantModule`)
* `bayesflow/losses.py` (`log_loss`)

Tensors of shape `(d,)` are functions `Fin d → R`; a batch of shape
`(B, d)` is a `List (Fin d → R)`.  The scalar type `R` is an arbitrary
linear ordered field, so that every definition stays executable; theorems
about transcendental quantities instantiate `R := ℝ`.  Components of the
repository that are imported by the sources but whose files are not part
of the source set (the ODE integrators, `InvariantModule`, the
`optimal_transport` utility and the base distribution) are modelled from
the specification and marked as such in their doc comments.
-/

namespace BayesFlow

/-- A state vector of dimension `d` (one batch element). -/
abbrev Vec (R : Type) (d : ℕ) : Type := Fin d → R

variable {R : Type} [LinearOrderedField R]

/-- Arithmetic mean of a list of scalars (`keras.ops.mean` over a batch
axis; division by zero yields `0` for the empty list, matching the
convention of field division in this embedding). -/
def meanList (l : List R) : R := l.sum / l.length

section Integrators

variable {d : ℕ} {Cond : Type}

/-- Modelled from the spec: the velocity field seen by an integrator, i.e.
`velocity(subnet, projector, state, t, conditions)` with the opaque function
approximator and the output projector composed into one function of
state, time and the optional condition tensor. -/
abbrev VField (R : Type) (d : ℕ) (Cond : Type) : Type :=
  Vec R d → R → Option Cond → Vec R d

/-- Modelled from the spec: the exact divergence (trace of the Jacobian of
the velocity field with respect to the state), supplied as an oracle, as the
spec allows exact automatic differentiation. -/
abbrev DivField (R : Type) (d : ℕ) (Cond : Type) : Type :=
  Vec R d → R → Option Cond → R

/-- Modelled from the spec: one step of the Euler scheme
`x_{k+1} = x_k + h * v(x_k, t_k, c)`, carrying `(state, time, trace)`;
the trace accumulates `h * div(x_k, t_k)`. -/
def eulerStep (v : VField R d Cond) (dv : DivField R d Cond) (c : Option Cond)
    (h : R) : Vec R d × R × R → Vec R d × R × R :=
  fun s =>
    (s.1 + h • v s.1 s.2.1 c, s.2.1 + h, s.2.2 + h * dv s.1 s.2.1 c)

/-- Modelled from the spec: one step of the RK2 (midpoint) scheme
`k1 = v(x_k, t_k, c)`; `k2 = v(x_k + (h/2) k1, t_k + h/2, c)`;
`x_{k+1} = x_k + h * k2`, carrying `(state, time, trace)`; the trace
accumulates `h * div` evaluated at the midpoint. -/
def rk2Step (v : VField R d Cond) (dv : DivField R d Cond) (c : Option Cond)
    (h : R) : Vec R d × R × R → Vec R d × R × R :=
  fun s =>
    let k1 := v s.1 s.2.1 c
    let xm := s.1 + (h / 2) • k1
    let tm := s.2.1 + h / 2
    (s.1 + h • v xm tm c, s.2.1 + h, s.2.2 + h * dv xm tm c)

/-- Modelled from the spec: one step of the classical four-stage RK4 scheme
with the standard weighted combination `h/6*(k1+2k2+2k3+k4)`, carrying
`(state, time, trace)`. -/
def rk4Step (v : VField R d Cond) (dv : DivField R d Cond) (c : Option Cond)
    (h : R) : Vec R d × R × R → Vec R d × R × R :=
  fun s =>
    let k1 := v s.1 s.2.1 c
    let k2 := v (s.1 + (h / 2) • k1) (s.2.1 + h / 2) c
    let k3 := v (s.1 + (h / 2) • k2) (s.2.1 + h / 2) c
    let k4 := v (s.1 + h • k3) (s.2.1 + h) c
    (s.1 + (h / 6) • (k1 + (2 : R) • k2 + (2 : R) • k3 + k4),
     s.2.1 + h, s.2.2 + h * dv s.1 s.2.1 c)

/-- Modelled from the spec: run a per-step update over the fixed step count.
Time runs over `[0,1]`: forward starts at `t = 0` with `h = 1/steps`,
inverse starts at `t = 1` with the sign of `h` flipped, which also flips the
sign of every trace contribution (`+` forward, `−` inverse).  Returns the
final state and the accumulated trace. -/
def integrate (step : (VField R d Cond) → (DivField R d Cond) → Option Cond →
      R → Vec R d × R × R → Vec R d × R × R)
    (v : VField R d Cond) (dv : DivField R d Cond) (c : Option Cond)
    (x0 : Vec R d) (steps : ℕ) (inverse : Bool) : Vec R d × R :=
  let h : R := if inverse then -(1 / steps) else 1 / steps
  let t0 : R := if inverse then 1 else 0
  let r := (step v dv c h)^[steps] (x0, t0, 0)
  (r.1, r.2.2)

/-- Modelled from the spec: the `EulerIntegrator` call. -/
def eulerIntegrate (v : VField R d Cond) (dv : DivField R d Cond)
    (c : Option Cond) (x0 : Vec R d) (steps : ℕ) (inverse : Bool) :
    Vec R d × R :=
  integrate eulerStep v dv c x0 steps inverse

/-- Modelled from the spec: the `RK2Integrator` call. -/
def rk2Integrate (v : VField R d Cond) (dv : DivField R d Cond)
    (c : Option Cond) (x0 : Vec R d) (steps : ℕ) (inverse : Bool) :
    Vec R d × R :=
  integrate rk2Step v dv c x0 steps inverse

/-- Modelled from the spec: the `RK4Integrator` call. -/
def rk4Integrate (v : VField R d Cond) (dv : DivField R d Cond)
    (c : Option Cond) (x0 : Vec R d) (steps : ℕ) (inverse : Bool) :
    Vec R d × R :=
  integrate rk4Step v dv c x0 steps inverse

end Integrators

/-- The disabled integrator selection of `FlowMatching.__init__`
(the commented-out `match integrator:` block): the names the block would
recognise. -/
inductive IntegratorKind : Type
  | euler : IntegratorKind
  | rk2 : IntegratorKind
  | rk4 : IntegratorKind
deriving DecidableEq

/-- The `FlowMatching` object: the trained subnet and output projector
composed into a velocity field (with its divergence oracle), the base
distribution's `log_prob`, the optimal-transport flag, any integrator
configuration supplied at construction time (which the constructor does not
read: the selection `match` is commented out), the seed-generator-driven
samplers used by `compute_metrics`, and the inherited
`InferenceNetwork.compute_metrics` (an opaque metrics dictionary, modelled
as a partial map from metric names to values). -/
structure FM (R : Type) (d : ℕ) (Cond : Type) : Type where
  vf : VField R d Cond
  dv : DivField R d Cond
  baseLogProb : Vec R d → R
  useOT : Bool
  integratorOpt : Option IntegratorKind
  normalDraw : ℕ → List (Vec R d)
  uniformDraw : ℕ → List R
  baseMetrics : List (Vec R d) → Option Cond → String → String → Option R

namespace FM

variable {d : ℕ} {Cond : Type}

/-- `FlowMatching._forward`: integrate `x` from `t = 0` to `t = 1` with a
freshly constructed `RK2Integrator` (`steps` defaults to 100 via
`kwargs.get("steps", 100)`).  With `density`, return the endpoint together
with `base_distribution.log_prob(z) + trace`; otherwise return only the
endpoint. -/
def forward (m : FM R d Cond) (x : Vec R d) (c : Option Cond)
    (density : Bool := false) (steps : Option ℕ := none) :
    Vec R d ⊕ (Vec R d × R) :=
  let n := steps.getD 100
  if density then
    let p := rk2Integrate m.vf m.dv c x n false
    Sum.inr (p.1, m.baseLogProb p.1 + p.2)
  else
    Sum.inl (rk2Integrate m.vf m.dv c x n false).1

/-- `FlowMatching._inverse`: integrate `z` from `t = 1` to `t = 0` with a
freshly constructed `RK2Integrator`.  With `density`, return the endpoint
together with `base_distribution.log_prob(z) − trace`, the log-probability
being evaluated at the input `z`; otherwise return only the endpoint. -/
def inverse (m : FM R d Cond) (z : Vec R d) (c : Option Cond)
    (density : Bool := false) (steps : Option ℕ := none) :
    Vec R d ⊕ (Vec R d × R) :=
  let n := steps.getD 100
  if density then
    let p := rk2Integrate m.vf m.dv c z n true
    Sum.inr (p.1, m.baseLogProb z - p.2)
  else
    Sum.inl (rk2Integrate m.vf m.dv c z n true).1

/-- `FlowMatching.call`: dispatch on `inverse` (default `False`); `density`
defaults to `False` and `steps` is absent from the keyword arguments by
default. -/
def call (m : FM R d Cond) (xz : Vec R d) (c : Option Cond)
    (inv : Bool := false) (density : Bool := false)
    (steps : Option ℕ := none) : Vec R d ⊕ (Vec R d × R) :=
  if inv then m.inverse xz c density steps
  else m.forward xz c density steps

end FM

/-- Modelled from the spec: the `optimal_transport` utility (imported from
`bayesflow.utils`, whose file is not part of the source set).  It reorders
the `(x1, x0)` pairing (and the conditions) to approximately minimise the
transport cost, returning the re-coupled `(x1, x0, conditions)`; it is kept
opaque here since only its position in the data flow matters for the
claims. -/
abbrev OTFn (R : Type) (d : ℕ) (Cond : Type) : Type :=
  List (Vec R d) → List (Vec R d) → Option Cond →
    List (Vec R d) × List (Vec R d) × Option Cond

/-- The argument `x` of `FlowMatching.compute_metrics`: either a raw data
batch `x1`, or a pre-configured `Sequence` unpacked as
`(x0, x1, t, x, target_velocity)`. -/
abbrev TrainInput (R : Type) (d : ℕ) : Type :=
  List (Vec R d) ⊕
    (List (Vec R d) × List (Vec R d) × List R × List (Vec R d) ×
      List (Vec R d))

/-- The training pair as it stands after lines 125–142 of
`flow_matching.py`: the values of the local variables `x0`, `x1`, `t`, `x`
(the interpolated state), `target_velocity` and `conditions` at the point
where the metrics are computed. -/
structure TrainPair (R : Type) (d : ℕ) (Cond : Type) : Type where
  x0 : List (Vec R d)
  x1 : List (Vec R d)
  t : List R
  xt : List (Vec R d)
  targetVelocity : List (Vec R d)
  cond : Option Cond

namespace FM

variable {d : ℕ} {Cond : Type}

/-- Lines 125–142 of `FlowMatching.compute_metrics`.  A `Sequence` input is
unpacked as `(x0, x1, t, x, target_velocity)` and used as is.  Otherwise
`x1 := x`, `x0` is drawn from the base normal distribution with the shape
of `x1`, the `(x1, x0, conditions)` coupling is reshuffled by
`optimal_transport` when `use_optimal_transport` is set, `t` is drawn
uniformly per batch element (shape `(batch,)` of the post-coupling `x0`)
and broadcast, `x := t * x1 + (1 - t) * x0` and
`target_velocity := x1 - x0`. -/
def makeTrainingPair (m : FM R d Cond) (ot : OTFn R d Cond)
    (input : TrainInput R d) (c : Option Cond) : TrainPair R d Cond :=
  match input with
  | Sum.inr q => ⟨q.1, q.2.1, q.2.2.1, q.2.2.2.1, q.2.2.2.2, c⟩
  | Sum.inl x1 =>
    let x0 := m.normalDraw x1.length
    let p := if m.useOT then ot x1 x0 c else (x1, x0, c)
    let t := m.uniformDraw p.2.1.length
    let xt := List.zipWith3 (fun ti a b => ti • a + (1 - ti) • b) t p.1 p.2.1
    let tv := List.zipWith (fun a b => a - b) p.1 p.2.1
    ⟨p.2.1, p.1, t, xt, tv, p.2.2⟩

end FM

/-- `keras.losses.mean_squared_error(y_true, y_pred)`: the mean over the
last (feature) axis of the squared differences, for one batch element. -/
def rowMse {d : ℕ} (yTrue yPred : Vec R d) : R :=
  (∑ j, (yTrue j - yPred j) ^ 2) / d

namespace FM

variable {d : ℕ} {Cond : Type}

/-- The predicted velocity of `FlowMatching.compute_metrics`:
`RK2Integrator().velocity(subnet, output_projector, x, t, conditions)`
evaluated on the interpolated batch, one row per batch element with that
element's time. -/
def predictedVelocity (m : FM R d Cond) (p : TrainPair R d Cond) :
    List (Vec R d) :=
  List.zipWith (fun xi ti => m.vf xi ti p.cond) p.xt p.t

/-- The `"loss"` value of `FlowMatching.compute_metrics`:
`mean(mean_squared_error(target_velocity, predicted_velocity))`. -/
def metricsLoss (m : FM R d Cond) (p : TrainPair R d Cond) : R :=
  meanList (List.zipWith rowMse p.targetVelocity (m.predictedVelocity p))

/-- `FlowMatching.compute_metrics`: build the training pair, compute the
base-network metrics `super().compute_metrics(x1, conditions, stage)`, and
return `base_metrics | {"loss": loss}` — the metric dictionary modelled by
its lookup function, with the right-hand operand of `|` winning on the
`"loss"` key. -/
def computeMetrics (m : FM R d Cond) (ot : OTFn R d Cond)
    (input : TrainInput R d) (c : Option Cond)
    (stage : String := "training") : String → Option R :=
  let p := m.makeTrainingPair ot input c
  let base := m.baseMetrics p.x1 p.cond stage
  let loss := m.metricsLoss p
  fun key => if key = "loss" then some loss else base key

end FM

section LogLoss

variable {J : ℕ}

/-- `tf.clip_by_value(x, lo, hi)`. -/
def clipByValue (lo hi x : R) : R := min (max x lo) hi

/-- `log_loss` from `bayesflow/losses.py`: normalise `alpha` into model
probabilities per row, clamp them into `[1e-15, 1 - 1e-15]` for numerical
stability, and return the negative mean over the batch of the row sums of
`model_indices * log(model_probs)`.  The external `tf.math.log` primitive
is passed in as `lg` (instantiated with `Real.log` in the theorems); the
literal `1e-15` is written `1 / 10 ^ 15`.  Field division is total
(`x / 0 = 0`), whereas the tf source yields NaN on an exactly zero
normalising denominator, which passes through `clip_by_value` and `log`;
theorems about this definition therefore restrict to rows whose
normalising denominator is nonzero, where the real-valued model is
faithful. -/
def log_loss (lg : R → R) (modelIndices alpha : List (Vec R J)) : R :=
  let modelProbs := alpha.map (fun row j => row j / ∑ k, row k)
  let clipped := modelProbs.map
    (fun row j => clipByValue (1 / 10 ^ 15) (1 - 1 / 10 ^ 15) (row j));
  -(meanList ((modelIndices.zip clipped).map
    (fun p => ∑ j, p.1 j * lg (p.2 j))))

end LogLoss

namespace DeepSet

/-- A `keras.layers.Dense` layer (kernel and bias; the default linear
activation).  A spectrally normalised Dense layer is again of this form,
with a rescaled kernel. -/
structure DenseP (R : Type) (din dout : ℕ) : Type where
  w : Fin dout → Fin din → R
  b : Fin dout → R

/-- Apply a Dense layer to one feature vector (the layer acts pointwise on
the last axis of a set tensor). -/
def DenseP.apply {din dout : ℕ} (L : DenseP R din dout) (x : Vec R din) :
    Vec R dout :=
  fun o => (∑ i, L.w o i * x i) + L.b o

/-- Apply an activation function elementwise to a feature vector. -/
def actVec {e : ℕ} (act : R → R) (x : Vec R e) : Vec R e :=
  fun j => act (x j)

/-- Modelled from the spec: the pooling policy of `InvariantModule`
(whose file is not part of the source set): arithmetic `mean`, elementwise
`max`, or a learned attention-style weighted pooling whose weights are a
function of each element alone (hence order-independent). -/
inductive Pooling (R : Type) (p : ℕ) : Type
  | mean : Pooling R p
  | max : Pooling R p
  | weighted (w : Vec R p → R) : Pooling R p

/-- Modelled from the spec: pool a set of `n + 1` feature vectors across
the set axis (the set size is kept positive, matching the spec's
precondition `N ≥ 1`). -/
def Pooling.pool {p n : ℕ} (pk : Pooling R p) (g : Fin (n + 1) → Vec R p) :
    Vec R p :=
  match pk with
  | Pooling.mean => fun j => (∑ i, g i j) / (n + 1)
  | Pooling.max => fun j => Finset.univ.sup' Finset.univ_nonempty fun i => g i j
  | Pooling.weighted w => fun j => ∑ i, w (g i) * g i j

/-- Modelled from the spec: `InvariantModule` — a pointwise inner transform
applied independently to every set element, a pooling across the set axis,
and a pointwise outer transform of the pooled vector (the inner and outer
dense stacks are kept as opaque pointwise maps). -/
structure InvP (R : Type) (e p r : ℕ) : Type where
  inner : Vec R e → Vec R p
  pk : Pooling R p
  outer : Vec R p → Vec R r

/-- Modelled from the spec: `InvariantModule.call` on a set of `n + 1`
elements. -/
def InvP.call {e p r n : ℕ} (np : InvP R e p r)
    (s : Fin (n + 1) → Vec R e) : Vec R r :=
  np.outer (np.pk.pool fun i => np.inner (s i))

/-- A `keras.layers.LayerNormalization` over the feature (last) axis:
centre and scale each feature vector by its own mean and variance, then
apply the learned `gamma`/`beta`.  The library's square-root primitive is
carried as an opaque field `sqrtFn`. -/
structure LNP (R : Type) (e : ℕ) : Type where
  gamma : Vec R e
  beta : Vec R e
  eps : R
  sqrtFn : R → R

/-- Apply layer normalization to one feature vector (the layer acts
pointwise on the set axis). -/
def LNP.apply {e : ℕ} (q : LNP R e) (x : Vec R e) : Vec R e :=
  let mu := (∑ j, x j) / e
  let variance := (∑ j, (x j - mu) ^ 2) / e
  fun j => q.gamma j * ((x j - mu) / q.sqrtFn (variance + q.eps)) + q.beta j

/-- The parameters of `EquivariantModule`: the `input_projection` Dense
layer (input width `din`, output width `e = units_equivariant`), the nested
`InvariantModule` (summary width `r`), the `equivariant_fc` stack — a first
Dense layer consuming the concatenation of width `e + r` followed by
further Dense layers of width `e`, each with the configured activation —
and the optional layer normalization. -/
structure EquivP (R : Type) (din e p r : ℕ) : Type where
  proj : DenseP R din e
  inv : InvP R e p r
  fc0 : DenseP R (e + r) e
  fcRest : List (DenseP R e e)
  act : R → R
  ln : Option (LNP R e)

/-- The `equivariant_fc` sequential stack applied to one concatenated
feature vector. -/
def EquivP.fcApply {din e p r : ℕ} (P : EquivP R din e p r)
    (x : Vec R (e + r)) : Vec R e :=
  P.fcRest.foldl (fun v L => actVec P.act (L.apply v))
    (actVec P.act (P.fc0.apply x))

/-- The line `input_set = self.input_projection(input_set)` of
`EquivariantModule.call`: the Dense projection applied to every set
element. -/
def EquivP.projected {din e p r n : ℕ} (P : EquivP R din e p r)
    (s : Fin (n + 1) → Vec R din) : Fin (n + 1) → Vec R e :=
  fun i => P.proj.apply (s i)

/-- Lines 93–103 of `EquivariantModule.call`: the invariant summary of the
projected set is tiled across the set axis, each projected element is
concatenated with it along the feature axis, the concatenation passes
through `equivariant_fc`, and the projected input is added back (the
residual connection). -/
def EquivP.preNorm {din e p r n : ℕ} (P : EquivP R din e p r)
    (s : Fin (n + 1) → Vec R din) : Fin (n + 1) → Vec R e :=
  fun i =>
    P.projected s i +
      P.fcApply (Fin.append (P.projected s i) (P.inv.call (P.projected s)))

/-- `EquivariantModule.call` on one set of `n + 1` elements (the leading
batch axes act elementwise and are dropped): the residual stage
`EquivP.preNorm`, followed by the optional layer normalization of each
element.  Dropout inside the nested invariant module is inactive outside
training and is omitted. -/
def EquivP.call {din e p r n : ℕ} (P : EquivP R din e p r)
    (s : Fin (n + 1) → Vec R din) : Fin (n + 1) → Vec R e :=
  match P.ln with
  | some q => fun i => q.apply (P.preNorm s i)
  | none => P.preNorm s

/-- A second definition following the alternative reading of the residual
connection in which the raw input (rather than its projection) is added
back; it only makes sense when the input width equals
`units_equivariant`, and is compared against `EquivP.call` to show the
source adds the projected input. -/
def EquivP.callRawResidual {e p r n : ℕ} (P : EquivP R e e p r)
    (s : Fin (n + 1) → Vec R e) : Fin (n + 1) → Vec R e :=
  let res := fun i =>
    s i + P.fcApply (Fin.append (P.projected s i) (P.inv.call (P.projected s)))
  match P.ln with
  | some q => fun i => q.apply (res i)
  | none => res

/-- A concrete instance with input width 2 and `units_equivariant = 1`
(the two widths differ), used to evaluate `EquivP.call` on a concrete
set. -/
def eqTestP1 : EquivP ℚ 2 1 1 1 where
  proj := ⟨![![1, 1]], ![0]⟩
  inv := ⟨id, Pooling.mean, id⟩
  fc0 := ⟨![![1, 0]], ![0]⟩
  fcRest := []
  act := id
  ln := none

/-- A concrete single-element set of feature width 2. -/
def eqTestS1 : Fin 1 → Vec ℚ 2 := fun _ => ![1, 2]

/-- A concrete instance with input width equal to `units_equivariant = 1`
and a non-identity projection, used to separate `EquivP.call` from
`EquivP.callRawResidual`. -/
def eqTestP2 : EquivP ℚ 1 1 1 1 where
  proj := ⟨![![2]], ![0]⟩
  inv := ⟨id, Pooling.mean, id⟩
  fc0 := ⟨![![1, 0]], ![0]⟩
  fcRest := []
  act := id
  ln := none

/-- A concrete single-element set of feature width 1. -/
def eqTestS2 : Fin 1 → Vec ℚ 1 := fun _ => ![1]

end DeepSet

/-- A concrete `FlowMatching` instance over `ℚ` in dimension 1 with a zero
velocity field, constant divergence 3 and constant base log-probability 5,
used to witness the density sign-consistency theorem on a concrete
input. -/
def sgnTestM : FM ℚ 1 Unit where
  vf := fun _ _ _ => fun _ => 0
  dv := fun _ _ _ => 3
  baseLogProb := fun _ => 5
  useOT := false
  integratorOpt := none
  normalDraw := fun _ => []
  uniformDraw := fun _ => []
  baseMetrics := fun _ _ _ _ => none

/-!  ## Theorems  -/

variable {d : ℕ} {Cond : Type}

/-- C1: with density requested, `FlowMatching._forward` returns the RK2
endpoint `z` together with the base distribution's log-probability at `z`
plus the accumulated trace, and `FlowMatching._inverse` returns the RK2
endpoint together with the base distribution's log-probability (at its
input `z`) minus the accumulated trace. -/
theorem forward_adds_inverse_subtracts_trace (m : FM R d Cond)
    (c : Option Cond) (x z : Vec R d) (steps : Option ℕ) :
    m.forward x c true steps =
      Sum.inr ((rk2Integrate m.vf m.dv c x (steps.getD 100) false).1,
        m.baseLogProb (rk2Integrate m.vf m.dv c x (steps.getD 100) false).1 +
          (rk2Integrate m.vf m.dv c x (steps.getD 100) false).2) ∧
    m.inverse z c true steps =
      Sum.inr ((rk2Integrate m.vf m.dv c z (steps.getD 100) true).1,
        m.baseLogProb z -
          (rk2Integrate m.vf m.dv c z (steps.getD 100) true).2) :=
  ⟨rfl, rfl⟩

/-- C7: `FlowMatching.call` dispatches to `_inverse` exactly when `inverse`
is true and to `_forward` otherwise; the call-time defaults are
`inverse = False`, `density = False` and no `steps` keyword, and both
`_forward` and `_inverse` use 100 steps when no `steps` keyword is
given. -/
theorem call_dispatch_and_defaults (m : FM R d Cond) (xz : Vec R d)
    (c : Option Cond) (density : Bool) (steps : Option ℕ) :
    m.call xz c true density steps = m.inverse xz c density steps ∧
    m.call xz c false density steps = m.forward xz c density steps ∧
    m.call xz c = m.forward xz c false none ∧
    m.forward xz c density none = m.forward xz c density (some 100) ∧
    m.inverse xz c density none = m.inverse xz c density (some 100) :=
  ⟨rfl, rfl, rfl, rfl, rfl⟩

/-- C9: a `Sequence` input to `compute_metrics` is unpacked as
`(x0, x1, t, x, target_velocity)` and used unchanged: the resulting
training pair is exactly the unpacked tuple, for every model state and
optimal-transport function — in particular the samplers are not consulted
and the optimal-transport coupling is not applied even when
`use_optimal_transport` is set. -/
theorem compute_metrics_preconfigured (m mAlt : FM R d Cond)
    (ot otAlt : OTFn R d Cond) (x0 x1 : List (Vec R d)) (t : List R)
    (xt tv : List (Vec R d)) (c : Option Cond) :
    m.makeTrainingPair ot (Sum.inr (x0, x1, t, xt, tv)) c =
      ⟨x0, x1, t, xt, tv, c⟩ ∧
    m.makeTrainingPair ot (Sum.inr (x0, x1, t, xt, tv)) c =
      mAlt.makeTrainingPair otAlt (Sum.inr (x0, x1, t, xt, tv)) c :=
  ⟨rfl, rfl⟩

/-- C3: `_forward`, `_inverse` and `compute_metrics` all use a freshly
constructed RK2 integrator, whatever integrator configuration was supplied
at construction time (the selection `match` is disabled): replacing the
stored integrator option changes nothing, the sampling branches are exactly
the RK2 integration, and on a concrete velocity field the three integrator
schemes are pairwise distinguishable, so using RK2 is an observable
choice. -/
theorem integrator_hardcoded_to_rk2 (m : FM R d Cond)
    (ot : OTFn R d Cond) (input : TrainInput R d) (c : Option Cond)
    (x z : Vec R d) (density : Bool) (steps : Option ℕ) (stage : String) :
    (∀ opt, ({m with integratorOpt := opt} : FM R d Cond).forward x c
        density steps = m.forward x c density steps) ∧
    (∀ opt, ({m with integratorOpt := opt} : FM R d Cond).inverse z c
        density steps = m.inverse z c density steps) ∧
    (∀ opt, ({m with integratorOpt := opt} : FM R d Cond).computeMetrics ot
        input c stage = m.computeMetrics ot input c stage) ∧
    m.forward x c false steps =
      Sum.inl (rk2Integrate m.vf m.dv c x (steps.getD 100) false).1 ∧
    m.inverse z c false steps =
      Sum.inl (rk2Integrate m.vf m.dv c z (steps.getD 100) true).1 ∧
    (rk2Integrate (fun _ t _ => fun _ => t ^ 2 : VField ℚ 1 Unit)
        (fun _ _ _ => 0) none (fun _ => 0) 1 false).1 0 = 1 / 4 ∧
    (eulerIntegrate (fun _ t _ => fun _ => t ^ 2 : VField ℚ 1 Unit)
        (fun _ _ _ => 0) none (fun _ => 0) 1 false).1 0 = 0 ∧
    (rk4Integrate (fun _ t _ => fun _ => t ^ 2 : VField ℚ 1 Unit)
        (fun _ _ _ => 0) none (fun _ => 0) 1 false).1 0 = 1 / 3 := by
  refine ⟨fun _ => rfl, fun _ => rfl, fun _ => rfl, rfl, rfl, ?_, ?_, ?_⟩
  · norm_num [rk2Integrate, integrate, rk2Step]
  · norm_num [eulerIntegrate, integrate, eulerStep]
  · norm_num [rk4Integrate, integrate, rk4Step]

/-- Helper: with a constant divergence, each RK2 step adds exactly `h * k`
to the trace accumulator. -/
theorem rk2_iterate_trace_const (v : VField R d Cond)
    (dv : DivField R d Cond) (c : Option Cond) (k h : R)
    (hdv : ∀ y t, dv y t c = k) :
    ∀ (n : ℕ) (s : Vec R d × R × R),
      ((rk2Step v dv c h)^[n] s).2.2 = s.2.2 + n * (h * k) := by
  intro n
  induction n with
  | zero => intro s; simp
  | succ n ih =>
    intro s
    rw [Function.iterate_succ_apply, ih]
    simp only [rk2Step, hdv]
    push_cast
    ring

/-- Helper: the accumulated RK2 trace of a constant-divergence field over
the whole integration, in either direction. -/
theorem rk2Integrate_trace_const (v : VField R d Cond)
    (dv : DivField R d Cond) (c : Option Cond) (k : R)
    (hdv : ∀ y t, dv y t c = k) (x0 : Vec R d) (n : ℕ) (inverse : Bool) :
    (rk2Integrate v dv c x0 n inverse).2 =
      n * ((if inverse then -(1 / (n : R)) else 1 / (n : R)) * k) := by
  unfold rk2Integrate integrate
  rw [rk2_iterate_trace_const v dv c k _ hdv n]
  ring

/-- C2 (amended): the log-density computed by `_forward(x, density=True)`
and the one recomputed by `_inverse(z, density=True)` on the resulting `z`
agree with the SAME sign — `log_density_forward = +log_density_inverse` —
exactly so whenever the velocity field's divergence is constant (when the
discretization of the trace is exact), for any step count. -/
theorem density_sign_consistency_amended (m : FM R d Cond)
    (c : Option Cond) (x z xr : Vec R d) (lf li : R) (n : ℕ) (k : R)
    (hdv : ∀ y t, m.dv y t c = k)
    (hf : m.forward x c true (some n) = Sum.inr (z, lf))
    (hi : m.inverse z c true (some n) = Sum.inr (xr, li)) :
    lf = li := by
  have hf2 : (Sum.inr ((rk2Integrate m.vf m.dv c x n false).1,
      m.baseLogProb (rk2Integrate m.vf m.dv c x n false).1 +
        (rk2Integrate m.vf m.dv c x n false).2) :
        Vec R d ⊕ (Vec R d × R)) = Sum.inr (z, lf) := by
    rw [← hf]; rfl
  have hi2 : (Sum.inr ((rk2Integrate m.vf m.dv c z n true).1,
      m.baseLogProb z - (rk2Integrate m.vf m.dv c z n true).2) :
        Vec R d ⊕ (Vec R d × R)) = Sum.inr (xr, li) := by
    rw [← hi]; rfl
  have e1 := Sum.inr.inj hf2
  have e2 := Sum.inr.inj hi2
  have hz : (rk2Integrate m.vf m.dv c x n false).1 = z := congrArg Prod.fst e1
  have hlf : m.baseLogProb (rk2Integrate m.vf m.dv c x n false).1 +
      (rk2Integrate m.vf m.dv c x n false).2 = lf := congrArg Prod.snd e1
  have hli : m.baseLogProb z - (rk2Integrate m.vf m.dv c z n true).2 = li :=
    congrArg Prod.snd e2
  rw [← hlf, ← hli, rk2Integrate_trace_const m.vf m.dv c k hdv x n false,
    rk2Integrate_trace_const m.vf m.dv c k hdv z n true, hz]
  norm_num

/-- Witness for C2 (amended) at a concrete input: the flow-matching
instance `sgnTestM` (constant divergence 3, base log-probability 5), one
integration step from the origin; the forward log-density equals the
recomputed inverse log-density. -/
theorem density_sign_consistency_amended_witness :
    (5 : ℚ) + (rk2Integrate sgnTestM.vf sgnTestM.dv none
        (fun _ => 0) 1 false).2 =
    (5 : ℚ) - (rk2Integrate sgnTestM.vf sgnTestM.dv none
        ((rk2Integrate sgnTestM.vf sgnTestM.dv none
          (fun _ => 0) 1 false).1) 1 true).2 :=
  density_sign_consistency_amended sgnTestM none (fun _ => 0) _ _ _ _ 1 3
    (fun _ _ => rfl) rfl rfl

/-- Counterexample to C2 as stated: for the zero velocity field in one
dimension with the standard normal base log-probability and starting point
0, both `_forward` and `_inverse` (density requested, one step, zero
discretization error) return the log-density `−log(2π)/2`, so
`log_density_forward = −log_density_inverse_recomputed` fails: the two
sides differ by `log(2π) > 1`. -/
theorem density_sign_consistency_claim_cex :
    ((FM.mk (fun _ _ _ => fun _ => 0) (fun _ _ _ => 0)
        (fun zv => -(zv 0 ^ 2) / 2 - Real.log (2 * Real.pi) / 2) false none
        (fun _ => []) (fun _ => []) (fun _ _ _ _ => none) :
          FM ℝ 1 Unit)).forward
      (fun _ => 0) none true (some 1) =
      Sum.inr (fun _ => 0, -(Real.log (2 * Real.pi)) / 2) ∧
    ((FM.mk (fun _ _ _ => fun _ => 0) (fun _ _ _ => 0)
        (fun zv => -(zv 0 ^ 2) / 2 - Real.log (2 * Real.pi) / 2) false none
        (fun _ => []) (fun _ => []) (fun _ _ _ _ => none) :
          FM ℝ 1 Unit)).inverse
      (fun _ => 0) none true (some 1) =
      Sum.inr (fun _ => 0, -(Real.log (2 * Real.pi)) / 2) ∧
    ¬(-(Real.log (2 * Real.pi)) / 2 = -(-(Real.log (2 * Real.pi)) / 2)) ∧
    1 < Real.log (2 * Real.pi) := by
  have hπ : 1 < Real.log (2 * Real.pi) := by
    rw [Real.lt_log_iff_exp_lt (by positivity)]
    have h1 : Real.exp 1 < 2.7182818286 := Real.exp_one_lt_d9
    have h2 : (3.141592 : ℝ) < Real.pi := Real.pi_gt_d6
    nlinarith
  refine ⟨?_, ?_, ?_, hπ⟩
  · norm_num [FM.forward, rk2Integrate, integrate, rk2Step]
    exact ⟨funext fun j => by norm_num, by ring⟩
  · norm_num [FM.inverse, rk2Integrate, integrate, rk2Step]
    exact ⟨funext fun j => by norm_num, by ring⟩
  · intro he
    nlinarith

/-- C5: on a raw (not pre-configured) batch, `compute_metrics` builds the
training pair fresh: the interpolated state is `t * x1 + (1 - t) * x0`
with `t` drawn uniformly per batch element of the (post-coupling) `x0`,
the target velocity is `x1 - x0`, `x0` is drawn from the base normal
distribution with the shape of the input `x1`, and when optimal transport
is enabled the `(x1, x0, conditions)` coupling is reshuffled by the
optimal-transport function before the interpolation. -/
theorem compute_metrics_fresh_pair (m : FM R d Cond) (ot : OTFn R d Cond)
    (x1 : List (Vec R d)) (c : Option Cond) :
    (m.makeTrainingPair ot (Sum.inl x1) c).xt =
      List.zipWith3 (fun ti a b => ti • a + (1 - ti) • b)
        (m.makeTrainingPair ot (Sum.inl x1) c).t
        (m.makeTrainingPair ot (Sum.inl x1) c).x1
        (m.makeTrainingPair ot (Sum.inl x1) c).x0 ∧
    (m.makeTrainingPair ot (Sum.inl x1) c).targetVelocity =
      List.zipWith (fun a b => a - b)
        (m.makeTrainingPair ot (Sum.inl x1) c).x1
        (m.makeTrainingPair ot (Sum.inl x1) c).x0 ∧
    (m.makeTrainingPair ot (Sum.inl x1) c).t =
      m.uniformDraw (m.makeTrainingPair ot (Sum.inl x1) c).x0.length ∧
    (m.useOT = false →
      (m.makeTrainingPair ot (Sum.inl x1) c).x0 = m.normalDraw x1.length ∧
      (m.makeTrainingPair ot (Sum.inl x1) c).x1 = x1 ∧
      (m.makeTrainingPair ot (Sum.inl x1) c).cond = c) ∧
    (m.useOT = true →
      ((m.makeTrainingPair ot (Sum.inl x1) c).x1,
        (m.makeTrainingPair ot (Sum.inl x1) c).x0,
        (m.makeTrainingPair ot (Sum.inl x1) c).cond) =
          ot x1 (m.normalDraw x1.length) c) := by
  refine ⟨rfl, rfl, rfl, fun h => ?_, fun h => ?_⟩
  · simp [FM.makeTrainingPair, h]
  · simp [FM.makeTrainingPair, h]

/-- Helper: `zipWith` as a map over the zipped list. -/
theorem zipWith_eq_map_zip {α β γ : Type} (f : α → β → γ) :
    ∀ (l1 : List α) (l2 : List β),
      List.zipWith f l1 l2 = (l1.zip l2).map fun pr => f pr.1 pr.2 := by
  intro l1
  induction l1 with
  | nil => intro l2; simp
  | cons a l ih => intro l2; cases l2 <;> simp [ih]

/-- Helper: a list of nonnegative entries sums to zero exactly when every
entry is zero. -/
theorem listSum_eq_zero_iff (l : List R) (h : ∀ x ∈ l, 0 ≤ x) :
    l.sum = 0 ↔ ∀ x ∈ l, x = 0 := by
  induction l with
  | nil => simp
  | cons a l ih =>
    have ha : 0 ≤ a := h a (List.mem_cons_self a l)
    have hl : ∀ x ∈ l, 0 ≤ x := fun x hx => h x (List.mem_cons_of_mem a hx)
    have hs : 0 ≤ l.sum := List.sum_nonneg hl
    simp only [List.sum_cons, List.mem_cons]
    rw [add_eq_zero_iff_of_nonneg ha hs, ih hl]
    constructor
    · rintro ⟨h1, h2⟩ x (rfl | hx)
      · exact h1
      · exact h2 x hx
    · intro hx
      exact ⟨hx a (Or.inl rfl), fun x hx2 => hx x (Or.inr hx2)⟩

/-- Helper: the mean of a list of nonnegative entries is nonnegative. -/
theorem meanList_nonneg (l : List R) (h : ∀ x ∈ l, 0 ≤ x) :
    0 ≤ meanList l :=
  div_nonneg (List.sum_nonneg h) (Nat.cast_nonneg _)

/-- Helper: the mean of a list of nonnegative entries is zero exactly when
every entry is zero. -/
theorem meanList_eq_zero_iff (l : List R) (h : ∀ x ∈ l, 0 ≤ x) :
    meanList l = 0 ↔ ∀ x ∈ l, x = 0 := by
  cases l with
  | nil => simp [meanList]
  | cons a l =>
    rw [meanList, div_eq_zero_iff]
    have : ((a :: l).length : R) ≠ 0 := by
      simp only [List.length_cons]
      push_cast
      have h0 : (0 : R) ≤ (l.length : R) := Nat.cast_nonneg _
      intro hC
      linarith
    rw [← listSum_eq_zero_iff _ h]
    constructor
    · rintro (hs | hlen)
      · exact hs
      · exact absurd hlen this
    · exact Or.inl

/-- Helper: the per-row mean squared error is nonnegative. -/
theorem rowMse_nonneg (y p : Vec R d) : 0 ≤ rowMse y p :=
  div_nonneg (Finset.sum_nonneg fun _ _ => sq_nonneg _) (Nat.cast_nonneg _)

/-- Helper: the per-row mean squared error vanishes exactly on equal
rows (for width zero both sides are trivially true). -/
theorem rowMse_eq_zero_iff (y p : Vec R d) : rowMse y p = 0 ↔ y = p := by
  constructor
  · intro h
    rcases Nat.eq_zero_or_pos d with hd | hd
    · subst hd
      funext j
      exact j.elim0
    · have hdR : ((d : R)) ≠ 0 := by
        simpa using Nat.pos_iff_ne_zero.mp hd
      rcases div_eq_zero_iff.mp h with hs | hzero
      · have hz := (Finset.sum_eq_zero_iff_of_nonneg
          (fun j _ => sq_nonneg (y j - p j))).mp hs
        funext j
        have := hz j (Finset.mem_univ j)
        have hyp : y j - p j = 0 := by
          exact pow_eq_zero_iff (n := 2) (by norm_num) |>.mp this
        linarith
      · exact absurd hzero hdR
  · rintro rfl
    simp [rowMse]

/-- Helper: the training loss is nonnegative. -/
theorem metricsLoss_nonneg (m : FM R d Cond) (p : TrainPair R d Cond) :
    0 ≤ m.metricsLoss p := by
  apply meanList_nonneg
  rw [zipWith_eq_map_zip]
  intro x hx
  rcases List.mem_map.mp hx with ⟨pr, _, rfl⟩
  exact rowMse_nonneg pr.1 pr.2

/-- Helper: the training loss vanishes exactly when predicted and target
velocities agree on every zipped pair. -/
theorem metricsLoss_eq_zero_iff (m : FM R d Cond) (p : TrainPair R d Cond) :
    m.metricsLoss p = 0 ↔
      ∀ pr ∈ p.targetVelocity.zip (m.predictedVelocity p), pr.1 = pr.2 := by
  unfold FM.metricsLoss
  rw [zipWith_eq_map_zip]
  rw [meanList_eq_zero_iff]
  · constructor
    · intro h pr hpr
      have := h (rowMse pr.1 pr.2) (List.mem_map.mpr ⟨pr, hpr, rfl⟩)
      exact (rowMse_eq_zero_iff pr.1 pr.2).mp this
    · intro h x hx
      rcases List.mem_map.mp hx with ⟨pr, hpr, rfl⟩
      exact (rowMse_eq_zero_iff pr.1 pr.2).mpr (h pr hpr)
  · intro x hx
    rcases List.mem_map.mp hx with ⟨pr, _, rfl⟩
    exact rowMse_nonneg pr.1 pr.2

/-- C6: `compute_metrics` returns the base-network metrics merged with a
`"loss"` entry holding the scalar mean-squared error between target and
predicted velocity; this loss is nonnegative and vanishes exactly when the
predicted velocity equals the target velocity on every element. -/
theorem compute_metrics_loss_properties (m : FM R d Cond)
    (ot : OTFn R d Cond) (input : TrainInput R d) (c : Option Cond)
    (stage : String) :
    m.computeMetrics ot input c stage "loss" =
      some (m.metricsLoss (m.makeTrainingPair ot input c)) ∧
    (∀ key, key ≠ "loss" →
      m.computeMetrics ot input c stage key =
        m.baseMetrics (m.makeTrainingPair ot input c).x1
          (m.makeTrainingPair ot input c).cond stage key) ∧
    0 ≤ m.metricsLoss (m.makeTrainingPair ot input c) ∧
    (m.metricsLoss (m.makeTrainingPair ot input c) = 0 ↔
      ∀ pr ∈ (m.makeTrainingPair ot input c).targetVelocity.zip
          (m.predictedVelocity (m.makeTrainingPair ot input c)),
        pr.1 = pr.2) := by
  refine ⟨?_, ?_, metricsLoss_nonneg m _, metricsLoss_eq_zero_iff m _⟩
  · simp [FM.computeMetrics]
  · intro key hk
    simp [FM.computeMetrics, hk]

/-- Helper: the clamp `clipByValue lo hi` lands in `[lo, hi]` whenever
`lo ≤ hi`, whatever its input (including the results of division by
zero). -/
theorem clipByValue_mem (lo hi x : R) (hlohi : lo ≤ hi) :
    lo ≤ clipByValue lo hi x ∧ clipByValue lo hi x ≤ hi :=
  ⟨le_min (le_max_right x lo) hlohi, min_le_right _ _⟩

/-- Helper: a list bounded above by a nonnegative `b` has mean at most
`b`. -/
theorem meanList_le (l : List R) (b : R) (hb : 0 ≤ b)
    (h : ∀ x ∈ l, x ≤ b) : meanList l ≤ b := by
  cases l with
  | nil => simpa [meanList] using hb
  | cons a l =>
    rw [meanList, div_le_iff₀ (by push_cast [List.length_cons]; positivity)]
    calc (a :: l).sum ≤ (a :: l).length • b := List.sum_le_card_nsmul _ b h
    _ = b * (a :: l).length := by rw [nsmul_eq_mul]; ring

/-- Helper: a list bounded below by a nonpositive `a` has mean at least
`a`. -/
theorem le_meanList (l : List R) (a : R) (ha : a ≤ 0)
    (h : ∀ x ∈ l, a ≤ x) : a ≤ meanList l := by
  cases l with
  | nil => simpa [meanList] using ha
  | cons b l =>
    rw [meanList, le_div_iff₀ (by push_cast [List.length_cons]; positivity)]
    calc a * (b :: l).length = (b :: l).length • a := by rw [nsmul_eq_mul]; ring
    _ ≤ (b :: l).sum := List.card_nsmul_le_sum _ a h

/-- C8: `log_loss` clamps the normalised model probabilities into
`[1e-15, 1 - 1e-15]` before taking logarithms (the clamp lands there for
every input), and under one-hot model indices the returned scalar is
finite: it lies in `[0, 15·log 10]`.  The statement is scoped to rows of
`alpha` whose normalising denominator is nonzero — there the real-valued
embedding is faithful; on an exactly zero denominator the tf source
produces NaN, which is outside this model — so "near-zero denominators"
(arbitrarily small but nonzero) are covered, as the witness at `1e-20`
shows. -/
theorem log_loss_clamps_and_is_finite {J : ℕ} (mi alpha : List (Vec ℝ J))
    (hm0 : ∀ v ∈ mi, ∀ j, 0 ≤ v j) (hm1 : ∀ v ∈ mi, ∑ j, v j = 1)
    (_ha : ∀ row ∈ alpha, (∑ k, row k) ≠ 0) :
    (∀ x : ℝ, 1 / 10 ^ 15 ≤ clipByValue (1 / 10 ^ 15) (1 - 1 / 10 ^ 15) x ∧
      clipByValue (1 / 10 ^ 15) (1 - 1 / 10 ^ 15) x ≤ 1 - 1 / 10 ^ 15) ∧
    0 ≤ log_loss Real.log mi alpha ∧
    log_loss Real.log mi alpha ≤ 15 * Real.log 10 := by
  have hclip : ∀ x : ℝ,
      1 / 10 ^ 15 ≤ clipByValue (1 / 10 ^ 15) (1 - 1 / 10 ^ 15) x ∧
      clipByValue (1 / 10 ^ 15) (1 - 1 / 10 ^ 15) x ≤ 1 - 1 / 10 ^ 15 :=
    fun x => clipByValue_mem _ _ x (by norm_num)
  refine ⟨hclip, ?_⟩
  unfold log_loss
  set ε : ℝ := 1 / 10 ^ 15 with hε
  have hεpos : (0 : ℝ) < ε := by norm_num [hε]
  -- Every entry of the averaged list lies in [log ε, 0].
  have hentry : ∀ x ∈ (mi.zip ((alpha.map fun row j => row j / ∑ k, row k).map
      fun row j => clipByValue ε (1 - ε) (row j))).map
        fun p => ∑ j, p.1 j * Real.log (p.2 j),
      Real.log ε ≤ x ∧ x ≤ 0 := by
    intro x hx
    rcases List.mem_map.mp hx with ⟨p, hp, rfl⟩
    obtain ⟨hp1, hp2⟩ := List.of_mem_zip hp
    rcases List.mem_map.mp hp2 with ⟨row, _, hweq⟩
    have hw : ∀ j, ε ≤ p.2 j ∧ p.2 j ≤ 1 - ε := by
      intro j
      rw [← hweq]
      exact clipByValue_mem _ _ _ (by norm_num [hε])
    constructor
    · calc Real.log ε = (∑ j, p.1 j) * Real.log ε := by rw [hm1 p.1 hp1]; ring
      _ = ∑ j, p.1 j * Real.log ε := by rw [Finset.sum_mul]
      _ ≤ ∑ j, p.1 j * Real.log (p.2 j) := by
          refine Finset.sum_le_sum fun j _ => ?_
          refine mul_le_mul_of_nonneg_left ?_ (hm0 p.1 hp1 j)
          exact (Real.log_le_log_iff hεpos (lt_of_lt_of_le hεpos (hw j).1)).mpr
            (hw j).1
    · refine Finset.sum_nonpos fun j _ => ?_
      refine mul_nonpos_iff.mpr (Or.inl ⟨hm0 p.1 hp1 j, ?_⟩)
      refine Real.log_nonpos (le_of_lt (lt_of_lt_of_le hεpos (hw j).1)) ?_
      calc p.2 j ≤ 1 - ε := (hw j).2
      _ ≤ 1 := by norm_num [hε]
  have hlogε : Real.log ε = -(15 * Real.log 10) := by
    rw [hε, one_div, Real.log_inv, Real.log_pow]
    norm_num
  constructor
  · have := meanList_le _ 0 le_rfl (fun x hx => (hentry x hx).2)
    linarith
  · have h10 : (0 : ℝ) ≤ Real.log 10 := Real.log_nonneg (by norm_num)
    have := le_meanList _ (Real.log ε)
      (by rw [hlogε]; linarith) (fun x hx => (hentry x hx).1)
    rw [hlogε] at this
    linarith

/-- Witness for C8 at a concrete input with a near-zero (but nonzero)
normalising denominator: one-hot indices `[1, 0]` and
`alpha = [1e-20, 0]`, whose row sum is `1e-20`; the loss is finite,
inside `[0, 15·log 10]`. -/
theorem log_loss_clamps_witness :
    0 ≤ log_loss Real.log [![(1 : ℝ), 0]] [![1 / 10 ^ 20, 0]] ∧
    log_loss Real.log [![(1 : ℝ), 0]] [![1 / 10 ^ 20, 0]] ≤
      15 * Real.log 10 :=
  (log_loss_clamps_and_is_finite [![(1 : ℝ), 0]] [![1 / 10 ^ 20, 0]]
    (by
      intro v hv j
      simp only [List.mem_singleton] at hv
      subst hv
      fin_cases j <;> norm_num)
    (by
      intro v hv
      simp only [List.mem_singleton] at hv
      subst hv
      simp [Fin.sum_univ_two])
    (by
      intro row hrow
      simp only [List.mem_singleton] at hrow
      subst hrow
      simp [Fin.sum_univ_two])).2

namespace DeepSet

/-- Helper: every pooling policy is invariant under a permutation of the
set axis. -/
theorem pool_comp_perm {p n : ℕ} (pk : Pooling R p)
    (g : Fin (n + 1) → Vec R p) (π : Equiv.Perm (Fin (n + 1))) :
    pk.pool (fun i => g (π i)) = pk.pool g := by
  cases pk with
  | mean =>
    funext j
    simp only [Pooling.pool]
    rw [Equiv.sum_comp π fun i => g i j]
  | max =>
    funext j
    simp only [Pooling.pool]
    apply le_antisymm
    · exact Finset.sup'_le _ _ fun i _ =>
        Finset.le_sup' (fun i => g i j) (Finset.mem_univ (π i))
    · refine Finset.sup'_le _ _ fun i _ => ?_
      have h : g i j = g (π (π.symm i)) j := by rw [Equiv.apply_symm_apply]
      rw [h]
      exact Finset.le_sup' (fun i2 => g (π i2) j) (Finset.mem_univ (π.symm i))
  | weighted w =>
    funext j
    simp only [Pooling.pool]
    exact Equiv.sum_comp π fun i => w (g i) * g i j

/-- Helper: the invariant module's summary is unchanged by a permutation
of the set axis. -/
theorem invariant_call_comp_perm {e p r n : ℕ} (np : InvP R e p r)
    (s : Fin (n + 1) → Vec R e) (π : Equiv.Perm (Fin (n + 1))) :
    np.call (fun i => s (π i)) = np.call s :=
  congrArg np.outer (pool_comp_perm np.pk (fun i => np.inner (s i)) π)

/-- C4: `EquivariantModule.call` is permutation-equivariant: for every set
of `N = n + 1 ≥ 1` elements and every permutation `π` of the set axis,
`call (π S) = π (call S)` — the invariant summary term is unaffected by
`π`, the projected-input and residual terms move with `π`, and the
optional layer normalization (acting per element over the feature axis)
preserves this. -/
theorem equivariant_module_permutation_equivariant {din e p r n : ℕ}
    (P : EquivP R din e p r) (s : Fin (n + 1) → Vec R din)
    (π : Equiv.Perm (Fin (n + 1))) :
    P.call (fun i => s (π i)) = fun i => P.call s (π i) := by
  have hsum : P.inv.call (P.projected fun i => s (π i)) =
      P.inv.call (P.projected s) :=
    invariant_call_comp_perm P.inv (P.projected s) π
  have hpre : P.preNorm (fun i => s (π i)) = fun i => P.preNorm s (π i) := by
    funext i
    unfold EquivP.preNorm
    rw [hsum]
    rfl
  unfold EquivP.call
  cases hln : P.ln with
  | none => exact hpre
  | some q =>
    funext i
    exact congrArg q.apply (congrFun hpre i)

/-- C10: the output of `EquivariantModule.call` has feature width
`units_equivariant` for every input feature width: with layer
normalization off the output at each position is exactly the projected
input plus the `equivariant_fc` image of the concatenation (the residual
adds the projection, not the raw input); a concrete instance with input
width 2 and output width 1 evaluates, and on a square instance the code's
residual differs from the raw-input alternative. -/
theorem equivariant_residual_and_width :
    (∀ (din e2 p2 r2 n2 : ℕ) (P : EquivP R din e2 p2 r2)
        (s : Fin (n2 + 1) → Vec R din) (i : Fin (n2 + 1)),
      ({P with ln := none} : EquivP R din e2 p2 r2).call s i =
        P.projected s i + P.fcApply (Fin.append (P.projected s i)
          (P.inv.call (P.projected s)))) ∧
    eqTestP1.call eqTestS1 0 0 = 6 ∧
    eqTestP2.call eqTestS2 0 0 = 4 ∧
    eqTestP2.callRawResidual eqTestS2 0 0 = 3 ∧
    eqTestP2.call eqTestS2 0 0 ≠ eqTestP2.callRawResidual eqTestS2 0 0 := by
  have h1 : eqTestP1.call eqTestS1 0 0 = 6 := by
    norm_num [EquivP.call, EquivP.preNorm, EquivP.projected, EquivP.fcApply,
      InvP.call, Pooling.pool, DenseP.apply, actVec, eqTestP1, eqTestS1,
      Fin.sum_univ_succ, Fin.append, Fin.addCases, Fin.eq_zero]
  have h2 : eqTestP2.call eqTestS2 0 0 = 4 := by
    norm_num [EquivP.call, EquivP.preNorm, EquivP.projected, EquivP.fcApply,
      InvP.call, Pooling.pool, DenseP.apply, actVec, eqTestP2, eqTestS2,
      Fin.sum_univ_succ, Fin.append, Fin.addCases, Fin.eq_zero]
  have h3 : eqTestP2.callRawResidual eqTestS2 0 0 = 3 := by
    norm_num [EquivP.callRawResidual, EquivP.projected, EquivP.fcApply,
      InvP.call, Pooling.pool, DenseP.apply, actVec, eqTestP2, eqTestS2,
      Fin.sum_univ_succ, Fin.append, Fin.addCases, Fin.eq_zero,
      Matrix.vecHead, Matrix.vecTail]
  refine ⟨fun _ _ _ _ _ P s i => rfl, h1, h2, h3, ?_⟩
  rw [h2, h3]
  norm_num

end DeepSet

end BayesFlow
